import Mathlib

/-!
Verification development for the `extended_networkx_tools` graph analytics
engine (`Analytics.py`).  The Python code is shallowly embedded: a graph is a
list of nodes in the order the underlying `nx.Graph` yields them together with
an undirected edge list; integer matrices are lists of rows over `ℤ` and the
row-normalised stochastic matrix lives over `ℚ`; Python functions that can
raise return `Option`.
-/

/-- A finite graph as the engine sees it: `nodes` is the sequence produced by
`nxg.nodes()` (iteration order matters to the code under verification), and
`edges` is the list of undirected edges, each stored once as an ordered pair. -/
structure FGraph where
  nodes : List ℕ
  edges : List (ℕ × ℕ)
deriving DecidableEq

namespace Analytics

/-- Well-formedness of the external graph object: node identifiers are unique,
edges join two distinct existing nodes, and no undirected edge is stored twice
(in either orientation).  `nx.Graph` guarantees all of this. -/
def WFc (g : FGraph) : Prop :=
  g.nodes.Nodup ∧
  (∀ e ∈ g.edges, e.1 ∈ g.nodes ∧ e.2 ∈ g.nodes ∧ e.1 ≠ e.2) ∧
  g.edges.Pairwise (fun e f => e ≠ f ∧ e ≠ (f.2, f.1))

instance (g : FGraph) : Decidable (WFc g) := by
  unfold WFc; infer_instance

/-- `nxg.neighbors(v)` / `nxg.edges(v)`: the nodes adjacent to `v`, in edge
insertion order. -/
def nbrs (g : FGraph) (v : ℕ) : List ℕ :=
  g.edges.filterMap fun e =>
    if e.1 = v then some e.2 else if e.2 = v then some e.1 else none

/-- `nx.degree(nxg, v)` for a node `v` that exists in the graph. -/
def degree (g : FGraph) (v : ℕ) : ℕ := (nbrs g v).length

/-- `nx.degree(nxg, v)` as called by the code: raises (here `none`) when `v`
is not a node of the graph. -/
def degLookup (g : FGraph) (v : ℕ) : Option ℕ :=
  if v ∈ g.nodes then some (degree g v) else none

/-- `s_nodes = list(nxg.nodes()); s_nodes.sort()`. -/
def sNodes (g : FGraph) : List ℕ := g.nodes.insertionSort (· ≤ ·)

/-- `s_nodes.index(node)`: canonical column index of a node identifier. -/
def nodeIdx (g : FGraph) (v : ℕ) : ℕ := (sNodes g).indexOf v

/-- The inner loop of `get_adjacency_matrix`: set entry `i` of the row to `1`
for every index in `idxs`. -/
def markOnes (row : List ℤ) (idxs : List ℕ) : List ℤ :=
  idxs.foldl (fun r i => r.set i 1) row

/-- One row of `get_adjacency_matrix`, built for the given `node`. -/
def adjRow (g : FGraph) (self_assignment : Bool) (node : ℕ) : List ℤ :=
  let dim := (sNodes g).length
  let base := List.replicate dim (0 : ℤ)
  let base := if self_assignment then base.set (nodeIdx g node) 1 else base
  markOnes base ((nbrs g node).map (nodeIdx g))

/-- `Analytics.get_adjacency_matrix(nxg, self_assignment)`: columns are indexed
by the sorted node identifiers, but rows are emitted in the order
`nxg.nodes()` yields nodes. -/
def get_adjacency_matrix (g : FGraph) (self_assignment : Bool) : List (List ℤ) :=
  g.nodes.map (adjRow g self_assignment)

/-- Sequence a list of fallible computations, stopping at the first failure,
as a Python `for` loop over fallible bodies does. -/
def optMapList {α β : Type} (f : α → Option β) : List α → Option (List β)
  | [] => some []
  | x :: xs => (f x).bind fun y => (optMapList f xs).map fun ys => y :: ys

/-- Fallible left fold, stopping at the first failure. -/
def optFoldList {σ α : Type} (f : σ → α → Option σ) : σ → List α → Option σ
  | s, [] => some s
  | s, x :: xs => (f s x).bind fun s' => optFoldList f s' xs

/-- One row of `get_degree_matrix`: the code writes
`row[node_index] = nx.degree(nxg, node_index)` — it queries the degree of the
*canonical index* `node_index`, not of `node`, raising when that index is not
itself a node identifier of the graph. -/
def degRow (g : FGraph) (node : ℕ) : Option (List ℤ) :=
  let dim := (sNodes g).length
  let ni := nodeIdx g node
  Option.map (fun d : ℕ => (List.replicate dim (0 : ℤ)).set ni (d : ℤ)) (degLookup g ni)

/-- `Analytics.get_degree_matrix(nxg)`. -/
def get_degree_matrix (g : FGraph) : Option (List (List ℤ)) :=
  optMapList (degRow g) g.nodes

/-- `mx[r][c]` for the in-range indexing the code performs. -/
def ent (mx : List (List ℤ)) (r c : ℕ) : ℤ :=
  ((mx[r]?).bind fun row => row[c]?).getD 0

/-- `Analytics.get_laplacian_matrix(nxg)`: entrywise difference of the degree
matrix and the non-self-assigned adjacency matrix. -/
def get_laplacian_matrix (g : FGraph) : Option (List (List ℤ)) :=
  (get_degree_matrix g).map fun D =>
    (List.range (get_adjacency_matrix g false).length).map fun r =>
      (List.range (get_adjacency_matrix g false).length).map fun c =>
        ent D r c - ent (get_adjacency_matrix g false) r c

/-- `mx[row_id] = list(map(lambda x: x / row_sum, mx[row_id]))` for one row. -/
def normalizeRow (row : List ℚ) : List ℚ := row.map fun x => x / row.sum

/-- The row-normalisation loop of `get_stochastic_neighbour_matrix`.  Each
iteration reads the original row `mx[row_id]` and replaces it by the row
divided by its sum. -/
def stochasticNormalize (mx : List (List ℚ)) : List (List ℚ) := mx.map normalizeRow

/-- The int entries of an adjacency matrix, as the reals Python's `/` turns
them into. -/
def ratMatrix (mx : List (List ℤ)) : List (List ℚ) :=
  mx.map fun row => row.map fun x => (x : ℚ)

/-- `Analytics.get_stochastic_neighbour_matrix(nxg)` (graph argument): builds
the self-assigned adjacency matrix and normalises its rows. -/
def get_stochastic_neighbour_matrix_of_graph (g : FGraph) : List (List ℚ) :=
  stochasticNormalize (ratMatrix (get_adjacency_matrix g true))

/-- `Analytics.get_stochastic_neighbour_matrix(adjacency_matrix=mx)` (matrix
argument): the return value of the call. -/
def get_stochastic_neighbour_matrix_of_matrix (mx : List (List ℚ)) : List (List ℚ) :=
  stochasticNormalize mx

/-- The value held by the caller's `adjacency_matrix` list after the call:
`mx = adjacency_matrix` aliases the caller's object and the loop assigns
`mx[row_id] = ...` into it, so after the call the caller's list holds the
normalised rows, and the returned list is that same object. -/
def stochastic_call_argument_after (mx : List (List ℚ)) : List (List ℚ) :=
  stochasticNormalize mx

/-- Result of a Python function that may return a float (possibly infinite),
return `None`, or raise an exception such as `IndexError`. -/
inductive PyRes (α : Type) where
  | err : PyRes α
  | pynone : PyRes α
  | val : α → PyRes α
deriving DecidableEq

/-- Python list indexing `l[i]` with an `int` index: negative indices address
from the end, and an out-of-range index raises `IndexError` (here `none`). -/
def pyGet (l : List ℚ) (i : ℤ) : Option ℚ :=
  if 0 ≤ i then l[i.toNat]?
  else if 0 ≤ i + l.length then l[(i + l.length).toNat]?
  else none

/-- The loop body of `second_largest`:
`if x > m2: (m1, m2) = (x, m1) if x >= m1 else (m1, x)` on the running pair
`(m1, m2)`, both initialised to `float('-inf')`. -/
def slStep (s : WithBot ℚ × WithBot ℚ) (x : ℚ) : WithBot ℚ × WithBot ℚ :=
  if s.2 < (x : WithBot ℚ) then
    if s.1 ≤ (x : WithBot ℚ) then ((x : WithBot ℚ), s.1) else (s.1, (x : WithBot ℚ))
  else s

/-- `Analytics.second_largest(numbers, sorted_list)`.  The presorted branch is
`numbers[len(numbers)-2]` with Python indexing semantics; the scan branch
returns `m2` when at least two values were seen, otherwise `None`. -/
def second_largest (numbers : List ℚ) (sorted_list : Bool) : PyRes (WithBot ℚ) :=
  if sorted_list then
    match pyGet numbers ((numbers.length : ℤ) - 2) with
    | some x => .val (x : WithBot ℚ)
    | none => .err
  else
    if 2 ≤ numbers.length then .val (numbers.foldl slStep (⊥, ⊥)).2 else .pynone

/-- The loop body of `second_smallest`, running pair initialised to
`float('inf')`. -/
def ssStep (s : WithTop ℚ × WithTop ℚ) (x : ℚ) : WithTop ℚ × WithTop ℚ :=
  if (x : WithTop ℚ) < s.2 then
    if (x : WithTop ℚ) ≤ s.1 then ((x : WithTop ℚ), s.1) else (s.1, (x : WithTop ℚ))
  else s

/-- `Analytics.second_smallest(numbers, sorted_list)`; the presorted branch is
`numbers[1]`. -/
def second_smallest (numbers : List ℚ) (sorted_list : Bool) : PyRes (WithTop ℚ) :=
  if sorted_list then
    match pyGet numbers 1 with
    | some x => .val (x : WithTop ℚ)
    | none => .err
  else
    if 2 ≤ numbers.length then .val (numbers.foldl ssStep (⊤, ⊤)).2 else .pynone

/-- The scan state of `second_largest` restricted to its invariant
`m2 ≤ m1`, used to reason about reordering the scanned list. -/
def slStepS (s : {p : WithBot ℚ × WithBot ℚ // p.2 ≤ p.1}) (x : ℚ) :
    {p : WithBot ℚ × WithBot ℚ // p.2 ≤ p.1} :=
  ⟨slStep s.val x, by
    rcases s with ⟨⟨a, b⟩, hab⟩
    simp only [slStep]
    split_ifs with h1 h2
    · exact h2
    · exact (not_le.1 h2).le
    · exact hab⟩

/-- The scan state of `second_smallest` restricted to its invariant
`m1 ≤ m2`. -/
def ssStepS (s : {p : WithTop ℚ × WithTop ℚ // p.1 ≤ p.2}) (x : ℚ) :
    {p : WithTop ℚ × WithTop ℚ // p.1 ≤ p.2} :=
  ⟨ssStep s.val x, by
    rcases s with ⟨⟨a, b⟩, hab⟩
    simp only [ssStep]
    split_ifs with h1 h2
    · exact h2
    · exact (not_le.1 h2).le
    · exact hab⟩

/-- One adjacency step of the graph: `b` is yielded by `nxg.edges(a)`. -/
def Adj (g : FGraph) (a b : ℕ) : Prop := b ∈ nbrs g a

/-- `destination` is reachable from `origin` along edges. -/
def Reach (g : FGraph) (a b : ℕ) : Prop := Relation.ReflTransGen (Adj g) a b

/-- The loop of `Analytics.is_nodes_connected`, indexed by the remaining
number of permitted iterations.  State: the `seen` set (a list without the
need for duplicates: `List.insert` adds only absent elements, like `set.add`)
and the FIFO queue.  Returns the final boolean together with the list of
nodes dequeued by the loop, or `none` when `fuel` iterations did not finish. -/
def bfsAux (g : FGraph) (destination : ℕ) :
    ℕ → List ℕ → List ℕ → Option (Bool × List ℕ)
  | 0, _, _ => none
  | _ + 1, _, [] => some (false, [])
  | fuel + 1, seen, v :: q =>
    if v = destination then some (true, [v])
    else
      let seen' := seen.insert v
      let q' := q ++ (nbrs g v).filter fun w => decide (w ∉ seen')
      (bfsAux g destination fuel seen' q').map fun p => (p.1, v :: p.2)

/-- Nodes at graph distance at most `k` from `o`: the `k`-fold neighbourhood
expansion.  This is the shortest-path-length facility the engine's
collaborator provides (`nx.all_pairs_shortest_path_length`, `nx.eccentricity`
are built from it). -/
def ball (g : FGraph) (o : ℕ) : ℕ → List ℕ
  | 0 => [o]
  | k + 1 =>
    let s := ball g o k
    (s ++ s.flatMap (nbrs g)).dedup

/-- Shortest-path length from `o` to `v`: the least radius at which `v`
enters the ball around `o`, `none` when `v` is unreachable from `o`. -/
def dist (g : FGraph) (o v : ℕ) : Option ℕ :=
  (List.range (g.nodes.length + 1)).find? fun k => decide (v ∈ ball g o k)

/-- The graph is connected: every node reaches every node. -/
def ConnectedG (g : FGraph) : Prop :=
  ∀ u ∈ g.nodes, ∀ v ∈ g.nodes, (dist g u v).isSome

instance (g : FGraph) : Decidable (ConnectedG g) := by
  unfold ConnectedG; infer_instance

/-- One entry of `nx.all_pairs_shortest_path_length(nxg)`: the dict mapping
each node reachable from `o` to its shortest-path distance, keyed in node
iteration order. -/
def spDict (g : FGraph) (o : ℕ) : List (ℕ × ℕ) :=
  g.nodes.filterMap fun v => (dist g o v).map fun d => (v, d)

/-- `path.get(k)` on such a dict. -/
def dictGet (l : List (ℕ × ℕ)) (k : ℕ) : Option ℕ :=
  (l.find? fun p => decide (p.1 = k)).map fun p => p.2

/-- The inner loop of `get_distance_distribution` for one origin:
`max_node_distance = -1`, then for `dest in range(0, len(path))` take the
maximum with `path.get(dest)`; `max(int, None)` raises, so a missing key
aborts the whole computation. -/
def originMaxDistance (g : FGraph) (o : ℕ) : Option ℤ :=
  optFoldList
    (fun acc i => Option.map (fun d : ℕ => max acc (d : ℤ)) (dictGet (spDict g o) i))
    (-1) (List.range (spDict g o).length)

/-- Add one occurrence of key `k` to a Python dict of counts: increment the
existing entry in place, or append the key with count 1. -/
def bump (d : List (ℤ × ℕ)) (k : ℤ) : List (ℤ × ℕ) :=
  if d.any (fun p => decide (p.1 = k)) then
    d.map fun p => if p.1 = k then (p.1, p.2 + 1) else p
  else d ++ [(k, 1)]

/-- Tally a list of values into a Python dict of counts (insertion order). -/
def tallyZ (vals : List ℤ) : List (ℤ × ℕ) := vals.foldl bump []

/-- The count a dict of counts assigns to key `k` (0 when absent). -/
def countAt (d : List (ℤ × ℕ)) (k : ℤ) : ℕ :=
  ((d.find? fun p => decide (p.1 = k)).map fun p => p.2).getD 0

/-- `Analytics.get_distance_distribution(nxg)`: for each origin, the maximum
of `path.get(dest)` over `dest in range(0, len(path))`, tallied whenever the
maximum is not `-1`. -/
def get_distance_distribution (g : FGraph) : Option (List (ℤ × ℕ)) :=
  (optMapList (originMaxDistance g) g.nodes).map fun maxes =>
    tallyZ (maxes.filter fun m => decide (m ≠ -1))

/-- `nx.eccentricity(nxg)[v]`: the maximum of the shortest-path lengths from
`v`; networkx raises (`none`) when not every node is reachable from `v`. -/
def eccOf (g : FGraph) (v : ℕ) : Option ℤ :=
  if (spDict g v).length = g.nodes.length then
    match (spDict g v).map (fun p => (p.2 : ℤ)) with
    | [] => none
    | h :: t => some (t.foldl max h)
  else none

/-- `Analytics.get_eccentricity_distribution(nxg)`: tally of the per-node
eccentricities, in node iteration order. -/
def get_eccentricity_distribution (g : FGraph) : Option (List (ℤ × ℕ)) :=
  (optMapList (eccOf g) g.nodes).map tallyZ

/-- Stated from the spec's words, for comparison with the code: the
all-pairs tally of shortest-path lengths, counting each unordered pair of
distinct nodes once. -/
def spec_pair_distance_tally (g : FGraph) : List (ℤ × ℕ) :=
  tallyZ <| g.nodes.flatMap fun u =>
    (g.nodes.filter fun v => decide (u < v)).map fun v => ((dist g u v).getD 0 : ℤ)

/-- Stated from the spec's words: the eccentricity of a node, the maximum
shortest-path distance from `v` to any node. -/
def spec_node_eccentricity (g : FGraph) (v : ℕ) : ℤ :=
  (g.nodes.map fun u => ((dist g v u).getD 0 : ℤ)).foldl max 0

/-- Stated from the spec's words: the mapping from each eccentricity value to
the number of nodes realizing it. -/
def spec_eccentricity_node_tally (g : FGraph) : List (ℤ × ℕ) :=
  tallyZ (g.nodes.map (spec_node_eccentricity g))

/-- A graph whose `nodes()` iteration yields `1, 0, 2`, with the single edge
`{0, 2}`. -/
def gIter : FGraph := ⟨[1, 0, 2], [(0, 2)]⟩

/-- A single edge between the node identifiers `5` and `7`. -/
def gFive : FGraph := ⟨[5, 7], [(5, 7)]⟩

/-- A single edge between the node identifiers `0` and `2`. -/
def gGap : FGraph := ⟨[0, 2], [(0, 2)]⟩

/-- The path graph `0 - 1 - 2`. -/
def gPath : FGraph := ⟨[0, 1, 2], [(0, 1), (1, 2)]⟩

/-- The cycle `0 - 1 - 2 - 3 - 0`. -/
def gRing : FGraph := ⟨[0, 1, 2, 3], [(0, 1), (1, 2), (2, 3), (3, 0)]⟩

/-- A diamond `0 - {1, 2} - 3` with a tail `3 - 4`. -/
def gDiamond : FGraph := ⟨[0, 1, 2, 3, 4], [(0, 1), (0, 2), (1, 3), (2, 3), (3, 4)]⟩

/-- C1: evaluation of the code at a failing input.  On the graph that yields
its nodes in the order `1, 0, 2` with the single edge `{0, 2}`, the
adjacency matrix built without self-assignment is
`[[0,0,0],[0,0,1],[1,0,0]]`, whose entry at row 1, column 2 differs from the
entry at row 2, column 1 — the matrix is not symmetric, because rows follow
the graph's iteration order while columns follow the sorted identifiers. -/
theorem adjacency_iteration_order_breaks_symmetry :
    get_adjacency_matrix gIter false = [[0, 0, 0], [0, 0, 1], [1, 0, 0]] ∧
    ent (get_adjacency_matrix gIter false) 1 2 ≠ ent (get_adjacency_matrix gIter false) 2 1 := by
  decide

/-- C3: evaluation of the code at a failing input.  On the graph with nodes
`{5, 7}` and the edge `{5, 7}`, `get_degree_matrix` raises: for node `5` it
evaluates `nx.degree(nxg, 0)` — the canonical *index* `0`, which is not a
node of the graph — instead of the degree of node `5`. -/
theorem degree_matrix_raises_on_noncontiguous_ids :
    get_degree_matrix gFive = none := by
  decide

/-- C9: evaluation of the code at a failing input.  After calling
`get_stochastic_neighbour_matrix` with the caller-supplied
`adjacency_matrix = [[1,1],[1,1]]`, the caller's matrix object holds the
normalised rows `[[1/2,1/2],[1/2,1/2]]` — its entries were overwritten in
place, contradicting the claim that arguments are left unchanged. -/
theorem stochastic_mutates_caller_matrix :
    stochastic_call_argument_after [[1, 1], [1, 1]] = [[1/2, 1/2], [1/2, 1/2]] ∧
    stochastic_call_argument_after [[1, 1], [1, 1]] ≠ [[1, 1], [1, 1]] := by
  norm_num [stochastic_call_argument_after, stochasticNormalize, normalizeRow]

/-- C2, counterexample: on the graph with nodes `{0, 2}` and one edge,
`get_laplacian_matrix` raises (the degree-matrix helper queries the degree
of the canonical index `1`, which is not a node), so it does not return a
matrix whose rows sum to zero. -/
theorem laplacian_raises_on_noncontiguous_ids :
    ¬ ∃ L, get_laplacian_matrix gGap = some L ∧ ∀ row ∈ L, row.sum = 0 := by
  rintro ⟨L, hL, -⟩
  rw [show get_laplacian_matrix gGap = none by decide] at hL
  exact Option.noConfusion hL

/-- C8, counterexample: with `sorted_list = true` a one-element list is not
answered with the `None` sentinel: `second_largest([7], sorted_list=True)`
evaluates `numbers[-1]` by Python's negative indexing and returns the list's
only element `7`, a defined numeric answer, while
`second_smallest([7], sorted_list=True)` raises an uncaught `IndexError`. -/
theorem sorted_flag_short_list_not_sentinel :
    second_largest [7] true = .val ((7 : ℚ) : WithBot ℚ) ∧
    second_largest [7] true ≠ .pynone ∧
    second_smallest [7] true = .err := by
  decide

/-- C4, counterexample: breadth-first search on the diamond graph
`0-1, 0-2, 1-3, 2-3, 3-4` from origin `0` to destination `4` dequeues node
`3` twice (the trace of dequeued nodes is `[0,1,2,3,3,4]`), because nodes
are marked seen only when dequeued, not when enqueued — the search does not
visit each node at most once. -/
theorem bfs_dequeues_a_node_twice :
    bfsAux gDiamond 4 10 [] [0] = some (true, [0, 1, 2, 3, 3, 4]) ∧
    List.count 3 [0, 1, 2, 3, 3, 4] = 2 := by
  decide

/-- Normalising each row of a matrix by its sum yields rows of sum exactly 1,
whenever no row sums to zero. -/
theorem normalize_rows_sum_one (mx : List (List ℚ)) (h : ∀ row ∈ mx, row.sum ≠ 0) :
    ∀ row ∈ stochasticNormalize mx, row.sum = 1 := by
  intro row' hmem
  obtain ⟨row, hrow, rfl⟩ := List.mem_map.1 hmem
  have hs := h row hrow
  simp only [normalizeRow, div_eq_mul_inv]
  have := List.sum_map_mul_right row id row.sum⁻¹
  simp only [id] at this
  rw [this, List.map_id, mul_inv_cancel₀ hs]

/-- C6: for every graph whose self-assigned adjacency matrix has no zero row
sum, every row of the matrix returned by `get_stochastic_neighbour_matrix`
sums to exactly 1 in exact rational arithmetic. -/
theorem stochastic_graph_rows_sum_to_one (g : FGraph)
    (h : ∀ row ∈ ratMatrix (get_adjacency_matrix g true), row.sum ≠ 0) :
    ∀ row ∈ get_stochastic_neighbour_matrix_of_graph g, row.sum = 1 :=
  normalize_rows_sum_one _ h

/-- Witness for C6 at the path graph `0 - 1 - 2`. -/
theorem stochastic_graph_rows_sum_to_one_witness :
    (∀ row ∈ ratMatrix (get_adjacency_matrix gPath true), row.sum ≠ 0) ∧
    (∀ row ∈ get_stochastic_neighbour_matrix_of_graph gPath, row.sum = 1) := by
  have h : ∀ row ∈ ratMatrix (get_adjacency_matrix gPath true), row.sum ≠ 0 := by
    rw [show get_adjacency_matrix gPath true = [[1, 1, 0], [1, 1, 1], [0, 1, 1]] by decide]
    norm_num [ratMatrix]
  exact ⟨h, stochastic_graph_rows_sum_to_one gPath h⟩

/-- C8, amended: with `sorted_list = false` both selectors do return the
`None` sentinel on lists of fewer than two numbers; with `sorted_list = true`
there is no guard: `second_smallest` raises `IndexError`, and
`second_largest` on a one-element list returns that element (and raises on
an empty list). -/
theorem short_list_second_extrema (l : List ℚ) (h : l.length < 2) :
    second_largest l false = .pynone ∧ second_smallest l false = .pynone ∧
    second_smallest l true = .err ∧
    (∀ x, l = [x] → second_largest l true = .val (x : WithBot ℚ)) ∧
    (l = [] → second_largest l true = .err) := by
  match l with
  | [] => exact ⟨rfl, rfl, rfl, fun x hx => by simp at hx, fun _ => rfl⟩
  | [a] =>
    refine ⟨rfl, rfl, rfl, fun x hx => ?_, fun hx => by simp at hx⟩
    obtain rfl : a = x := by injection hx
    rfl
  | a :: b :: t => simp only [List.length_cons] at h; omega

/-- Witness for C8 at the one-element list `[7]`. -/
theorem short_list_second_extrema_witness :
    ([7] : List ℚ).length < 2 ∧
    (second_largest [7] false = .pynone ∧ second_smallest ([7] : List ℚ) false = .pynone ∧
      second_smallest ([7] : List ℚ) true = .err ∧
      (∀ x, ([7] : List ℚ) = [x] → second_largest [7] true = .val (x : WithBot ℚ)) ∧
      (([7] : List ℚ) = [] → second_largest [7] true = .err)) :=
  ⟨by decide, short_list_second_extrema [7] (by decide)⟩

/-- Under the scan invariant, one `second_largest` step keeps the running
maximum and joins the discarded value into the running second maximum. -/
theorem slStep_canon (a b : WithBot ℚ) (x : ℚ) (hab : b ≤ a) :
    slStep (a, b) x = (a ⊔ (x : WithBot ℚ), b ⊔ (a ⊓ (x : WithBot ℚ))) := by
  simp only [slStep]
  split_ifs with h1 h2
  · refine Prod.ext ?_ ?_ <;> dsimp only
    · rw [sup_eq_right.2 h2]
    · rw [inf_eq_left.2 h2, sup_eq_right.2 hab]
  · have hxa : (x : WithBot ℚ) ≤ a := (not_le.1 h2).le
    refine Prod.ext ?_ ?_ <;> dsimp only
    · rw [sup_eq_left.2 hxa]
    · rw [inf_eq_right.2 hxa, sup_eq_right.2 h1.le]
  · have hxb : (x : WithBot ℚ) ≤ b := not_lt.1 h1
    refine Prod.ext ?_ ?_ <;> dsimp only
    · rw [sup_eq_left.2 (hxb.trans hab)]
    · rw [inf_eq_right.2 (hxb.trans hab), sup_eq_left.2 hxb]

/-- Two `second_largest` scan steps commute on invariant-respecting states. -/
theorem slStepS_comm (s : {p : WithBot ℚ × WithBot ℚ // p.2 ≤ p.1}) (x y : ℚ) :
    slStepS (slStepS s x) y = slStepS (slStepS s y) x := by
  apply Subtype.ext
  rcases s with ⟨⟨a, b⟩, hab⟩
  have inv : ∀ z : ℚ, b ⊔ (a ⊓ (z : WithBot ℚ)) ≤ a ⊔ (z : WithBot ℚ) := fun z =>
    sup_le (hab.trans le_sup_left) (inf_le_right.trans le_sup_right)
  show slStep (slStep (a, b) x) y = slStep (slStep (a, b) y) x
  rw [slStep_canon a b x hab, slStep_canon a b y hab,
    slStep_canon _ _ y (inv x), slStep_canon _ _ x (inv y)]
  refine Prod.ext ?_ ?_ <;> dsimp only
  · rw [sup_assoc, sup_assoc, sup_comm (x : WithBot ℚ)]
  · rw [inf_sup_right, inf_sup_right]
    rw [sup_assoc, sup_assoc]
    congr 1
    rw [← sup_assoc, ← sup_assoc]
    rw [inf_comm ((x : WithBot ℚ)) ((y : WithBot ℚ))]
    congr 1
    exact sup_comm _ _

/-- The untracked scan agrees with the invariant-tracking scan. -/
theorem foldl_slStepS_val (l : List ℚ) (s : {p : WithBot ℚ × WithBot ℚ // p.2 ≤ p.1}) :
    List.foldl slStep s.val l = (List.foldl slStepS s l).val := by
  induction l generalizing s with
  | nil => rfl
  | cons x xs ih => exact ih (slStepS s x)

/-- The `second_largest` scan is invariant under permuting its input. -/
theorem foldl_slStep_perm {l l' : List ℚ} (h : l.Perm l') :
    List.foldl slStep (⊥, ⊥) l = List.foldl slStep (⊥, ⊥) l' := by
  have h0 : (((⊥, ⊥) : WithBot ℚ × WithBot ℚ)).2 ≤ (((⊥, ⊥) : WithBot ℚ × WithBot ℚ)).1 :=
    le_refl _
  rw [foldl_slStepS_val l ⟨(⊥, ⊥), h0⟩, foldl_slStepS_val l' ⟨(⊥, ⊥), h0⟩]
  congr 1
  exact @List.Perm.foldl_eq _ _ slStepS _ _ ⟨fun s x y => slStepS_comm s x y⟩ h _

/-- Values at most the running second maximum leave the scan state alone. -/
theorem foldl_slStep_fixed (a b : WithBot ℚ) (t : List ℚ)
    (ht : ∀ z ∈ t, (z : WithBot ℚ) ≤ b) :
    List.foldl slStep (a, b) t = (a, b) := by
  induction t with
  | nil => rfl
  | cons z zs ih =>
    have hz : ¬ ((a, b) : WithBot ℚ × WithBot ℚ).2 < (z : WithBot ℚ) :=
      not_lt.2 (ht z (by simp))
    show List.foldl slStep (slStep (a, b) z) zs = (a, b)
    rw [show slStep (a, b) z = (a, b) from if_neg hz]
    exact ih fun w hw => ht w (by simp [hw])

/-- On a descending list the `second_largest` scan returns the two head
elements. -/
theorem foldl_slStep_desc (x y : ℚ) (t : List ℚ)
    (hyx : y ≤ x) (ht : ∀ z ∈ t, z ≤ y) :
    List.foldl slStep (⊥, ⊥) (x :: y :: t) = ((x : WithBot ℚ), (y : WithBot ℚ)) := by
  have h1 : slStep (⊥, ⊥) x = ((x : WithBot ℚ), ⊥) := by
    simp [slStep, WithBot.bot_lt_coe]
  have h2 : slStep ((x : WithBot ℚ), ⊥) y = ((x : WithBot ℚ), (y : WithBot ℚ)) := by
    by_cases hxy : ((x : WithBot ℚ)) ≤ (y : WithBot ℚ)
    · have hx : x = y := le_antisymm (WithBot.coe_le_coe.1 hxy) hyx
      subst hx
      simp [slStep, WithBot.bot_lt_coe]
    · simp [slStep, WithBot.bot_lt_coe, hxy]
  show List.foldl slStep (slStep (slStep (⊥, ⊥) x) y) t = _
  rw [h1, h2]
  exact foldl_slStep_fixed _ _ t fun z hz => WithBot.coe_le_coe.2 (ht z hz)

/-- A list of length at least two has two head elements. -/
theorem exists_two_head {α : Type} (l : List α) (h : 2 ≤ l.length) :
    ∃ x y t, l = x :: y :: t := by
  match l with
  | [] => simp at h
  | [a] => simp at h
  | a :: b :: t => exact ⟨a, b, t, rfl⟩

/-- The linear scan of `second_largest` agrees with the sorted-list index
lookup `numbers[len(numbers)-2]` on every list of at least two numbers. -/
theorem second_largest_parity (l : List ℚ) (h : 2 ≤ l.length) :
    second_largest l false = second_largest (l.insertionSort (· ≤ ·)) true := by
  have hperm : (l.insertionSort (· ≤ ·)).Perm l := List.perm_insertionSort _ l
  have hlen : (l.insertionSort (· ≤ ·)).length = l.length := hperm.length_eq
  have hsort : List.Sorted (· ≤ ·) (l.insertionSort (· ≤ ·)) := List.sorted_insertionSort _ l
  set s := l.insertionSort (· ≤ ·) with hs
  have hslen : 2 ≤ s.length := hlen ▸ h
  have hrev : List.Pairwise (fun a b => b ≤ a) s.reverse :=
    List.pairwise_reverse.2 hsort
  obtain ⟨x, y, t, hxyt⟩ := exists_two_head s.reverse (by simpa using hslen)
  -- the scan branch
  have hlperm : l.Perm s.reverse := (hperm.symm).trans (s.reverse_perm).symm
  rw [hxyt] at hrev
  have hyx : y ≤ x := (List.pairwise_cons.1 hrev).1 y (by simp)
  have ht : ∀ z ∈ t, z ≤ y :=
    fun z hz => (List.pairwise_cons.1 (List.pairwise_cons.1 hrev).2).1 z hz
  have hscan : List.foldl slStep (⊥, ⊥) l = ((x : WithBot ℚ), (y : WithBot ℚ)) := by
    rw [foldl_slStep_perm hlperm, hxyt]
    exact foldl_slStep_desc x y t hyx ht
  -- identify y with s[s.length - 2]
  have hy : s[s.length - 2]? = some y := by
    have h1 : (1 : ℕ) < s.length := by omega
    have := List.getElem?_reverse (l := s) (i := 1) (by omega)
    rw [hxyt] at this
    simpa [show s.length - 1 - 1 = s.length - 2 by omega] using this.symm
  -- both sides
  have hlhs : second_largest l false = .val (y : WithBot ℚ) := by
    rw [second_largest, if_neg (by simp), if_pos h, hscan]
  have hrhs : second_largest s true = .val (y : WithBot ℚ) := by
    rw [second_largest, if_pos rfl]
    have hpg : pyGet s ((s.length : ℤ) - 2) = some y := by
      rw [pyGet, if_pos (by omega)]
      rw [show ((s.length : ℤ) - 2).toNat = s.length - 2 by omega]
      exact hy
    rw [hpg]
  rw [hlhs, hrhs]

/-- Under the scan invariant, one `second_smallest` step keeps the running
minimum and meets the discarded value into the running second minimum. -/
theorem ssStep_canon (a b : WithTop ℚ) (x : ℚ) (hab : a ≤ b) :
    ssStep (a, b) x = (a ⊓ (x : WithTop ℚ), b ⊓ (a ⊔ (x : WithTop ℚ))) := by
  simp only [ssStep]
  split_ifs with h1 h2
  · refine Prod.ext ?_ ?_ <;> dsimp only
    · rw [inf_eq_right.2 h2]
    · rw [sup_eq_left.2 h2, inf_eq_right.2 hab]
  · have hax : a ≤ (x : WithTop ℚ) := (not_le.1 h2).le
    refine Prod.ext ?_ ?_ <;> dsimp only
    · rw [inf_eq_left.2 hax]
    · rw [sup_eq_right.2 hax, inf_eq_right.2 h1.le]
  · have hbx : b ≤ (x : WithTop ℚ) := not_lt.1 h1
    refine Prod.ext ?_ ?_ <;> dsimp only
    · rw [inf_eq_left.2 (hab.trans hbx)]
    · rw [sup_eq_right.2 (hab.trans hbx), inf_eq_left.2 hbx]

/-- Two `second_smallest` scan steps commute on invariant-respecting
states. -/
theorem ssStepS_comm (s : {p : WithTop ℚ × WithTop ℚ // p.1 ≤ p.2}) (x y : ℚ) :
    ssStepS (ssStepS s x) y = ssStepS (ssStepS s y) x := by
  apply Subtype.ext
  rcases s with ⟨⟨a, b⟩, hab⟩
  have inv : ∀ z : ℚ, a ⊓ (z : WithTop ℚ) ≤ b ⊓ (a ⊔ (z : WithTop ℚ)) := fun z =>
    le_inf (inf_le_left.trans hab) (inf_le_right.trans le_sup_right)
  show ssStep (ssStep (a, b) x) y
      = ssStep (ssStep (a, b) y) x
  rw [ssStep_canon a b x hab, ssStep_canon a b y hab,
    ssStep_canon _ _ y (inv x), ssStep_canon _ _ x (inv y)]
  refine Prod.ext ?_ ?_ <;> dsimp only
  · rw [inf_assoc, inf_assoc, inf_comm (x : WithTop ℚ)]
  · rw [sup_inf_right, sup_inf_right]
    rw [inf_assoc, inf_assoc]
    congr 1
    rw [← inf_assoc, ← inf_assoc]
    rw [sup_comm ((x : WithTop ℚ)) ((y : WithTop ℚ))]
    congr 1
    exact inf_comm _ _

/-- The untracked scan agrees with the invariant-tracking scan. -/
theorem foldl_ssStepS_val (l : List ℚ) (s : {p : WithTop ℚ × WithTop ℚ // p.1 ≤ p.2}) :
    List.foldl ssStep s.val l = (List.foldl ssStepS s l).val := by
  induction l generalizing s with
  | nil => rfl
  | cons x xs ih => exact ih (ssStepS s x)

/-- The `second_smallest` scan is invariant under permuting its input. -/
theorem foldl_ssStep_perm {l l' : List ℚ} (h : l.Perm l') :
    List.foldl ssStep (⊤, ⊤) l = List.foldl ssStep (⊤, ⊤) l' := by
  have h0 : (((⊤, ⊤) : WithTop ℚ × WithTop ℚ)).1 ≤ (((⊤, ⊤) : WithTop ℚ × WithTop ℚ)).2 :=
    le_refl _
  rw [foldl_ssStepS_val l ⟨(⊤, ⊤), h0⟩, foldl_ssStepS_val l' ⟨(⊤, ⊤), h0⟩]
  congr 1
  exact @List.Perm.foldl_eq _ _ ssStepS _ _ ⟨fun s x y => ssStepS_comm s x y⟩ h _

/-- Values at least the running second minimum leave the scan state alone. -/
theorem foldl_ssStep_fixed (a b : WithTop ℚ) (t : List ℚ)
    (ht : ∀ z ∈ t, b ≤ (z : WithTop ℚ)) :
    List.foldl ssStep (a, b) t = (a, b) := by
  induction t with
  | nil => rfl
  | cons z zs ih =>
    have hz : ¬ (z : WithTop ℚ) < ((a, b) : WithTop ℚ × WithTop ℚ).2 :=
      not_lt.2 (ht z (by simp))
    show List.foldl ssStep (ssStep (a, b) z) zs = (a, b)
    rw [show ssStep (a, b) z = (a, b) from if_neg hz]
    exact ih fun w hw => ht w (by simp [hw])

/-- On an ascending list the `second_smallest` scan returns the two head
elements. -/
theorem foldl_ssStep_asc (x y : ℚ) (t : List ℚ)
    (hxy : x ≤ y) (ht : ∀ z ∈ t, y ≤ z) :
    List.foldl ssStep (⊤, ⊤) (x :: y :: t)
      = ((x : WithTop ℚ), (y : WithTop ℚ)) := by
  have h1 : ssStep (⊤, ⊤) x = ((x : WithTop ℚ), ⊤) := by
    simp [ssStep, WithTop.coe_lt_top]
  have h2 : ssStep ((x : WithTop ℚ), ⊤) y
      = ((x : WithTop ℚ), (y : WithTop ℚ)) := by
    by_cases hyx : ((y : WithTop ℚ)) ≤ (x : WithTop ℚ)
    · have hx : x = y := le_antisymm hxy (WithTop.coe_le_coe.1 hyx)
      subst hx
      simp [ssStep, WithTop.coe_lt_top]
    · simp [ssStep, WithTop.coe_lt_top, hyx]
  show List.foldl ssStep (ssStep (ssStep (⊤, ⊤) x) y) t = _
  rw [h1, h2]
  exact foldl_ssStep_fixed _ _ t fun z hz => WithTop.coe_le_coe.2 (ht z hz)

/-- The linear scan of `second_smallest` agrees with the sorted-list index
lookup `numbers[1]` on every list of at least two numbers. -/
theorem second_smallest_parity (l : List ℚ) (h : 2 ≤ l.length) :
    second_smallest l false
      = second_smallest (l.insertionSort (· ≤ ·)) true := by
  have hperm : (l.insertionSort (· ≤ ·)).Perm l := List.perm_insertionSort _ l
  have hlen : (l.insertionSort (· ≤ ·)).length = l.length := hperm.length_eq
  have hsort : List.Sorted (· ≤ ·) (l.insertionSort (· ≤ ·)) := List.sorted_insertionSort _ l
  set s := l.insertionSort (· ≤ ·) with hs
  have hslen : 2 ≤ s.length := hlen ▸ h
  obtain ⟨x, y, t, hxyt⟩ := exists_two_head s hslen
  rw [hxyt] at hsort
  have hxy : x ≤ y := (List.pairwise_cons.1 hsort).1 y (by simp)
  have ht : ∀ z ∈ t, y ≤ z :=
    fun z hz => (List.pairwise_cons.1 (List.pairwise_cons.1 hsort).2).1 z hz
  have hscan : List.foldl ssStep (⊤, ⊤) l = ((x : WithTop ℚ), (y : WithTop ℚ)) := by
    rw [foldl_ssStep_perm hperm.symm, hxyt]
    exact foldl_ssStep_asc x y t hxy ht
  have hlhs : second_smallest l false = .val (y : WithTop ℚ) := by
    rw [second_smallest, if_neg (by simp), if_pos h, hscan]
  have hrhs : second_smallest s true = .val (y : WithTop ℚ) := by
    rw [second_smallest, if_pos rfl]
    have hpg : pyGet s 1 = some y := by
      rw [pyGet, if_pos (by omega)]
      rw [hxyt]
      simp [Int.toNat_one]
    rw [hpg]
  rw [hlhs, hrhs]

/-- C7: for every list of two or more numbers, the single linear scans of
`second_largest` and `second_smallest` return the same values as the
`sorted_list = true` index lookups applied to the ascending-sorted list; in
particular `second_largest([3,1,4,1,5,9,2,6])` is `6` and
`second_largest([1,1,2,3,3,5,8], sorted_list=True)` is `5`. -/
theorem second_extrema_scan_matches_sorted :
    (∀ l : List ℚ, 2 ≤ l.length →
      second_largest l false = second_largest (l.insertionSort (· ≤ ·)) true ∧
      second_smallest l false = second_smallest (l.insertionSort (· ≤ ·)) true) ∧
    second_largest [3, 1, 4, 1, 5, 9, 2, 6] false = .val ((6 : ℚ) : WithBot ℚ) ∧
    second_largest [1, 1, 2, 3, 3, 5, 8] true = .val ((5 : ℚ) : WithBot ℚ) :=
  ⟨fun l h => ⟨second_largest_parity l h, second_smallest_parity l h⟩, by decide, by decide⟩

/-- Witness for C7 at the list `[3, 1, 4, 1, 5, 9, 2, 6]`. -/
theorem second_extrema_scan_matches_sorted_witness :
    2 ≤ ([3, 1, 4, 1, 5, 9, 2, 6] : List ℚ).length ∧
    (second_largest [3, 1, 4, 1, 5, 9, 2, 6] false
        = second_largest (([3, 1, 4, 1, 5, 9, 2, 6] : List ℚ).insertionSort (· ≤ ·)) true ∧
      second_smallest ([3, 1, 4, 1, 5, 9, 2, 6] : List ℚ) false
        = second_smallest (([3, 1, 4, 1, 5, 9, 2, 6] : List ℚ).insertionSort (· ≤ ·)) true) :=
  ⟨by decide, second_extrema_scan_matches_sorted.1 [3, 1, 4, 1, 5, 9, 2, 6] (by decide)⟩

/-- Reachability cannot leave a set that is closed under the neighbour
relation. -/
theorem closure_reach (g : FGraph) (S : List ℕ)
    (hcl : ∀ u ∈ S, ∀ w ∈ nbrs g u, w ∈ S) {v w : ℕ}
    (hv : v ∈ S) (hr : Reach g v w) : w ∈ S := by
  induction hr with
  | refl => exact hv
  | tail h1 h2 ih => exact hcl _ ih _ h2

/-- If the search loop drains its queue and answers `false`, then no node of
the seen set or the queue reaches the destination, provided the seen set is
closed up to the queue and never contains the destination. -/
theorem bfsAux_false (g : FGraph) (dest : ℕ) :
    ∀ fuel S q tr, bfsAux g dest fuel S q = some (false, tr) →
      (∀ u ∈ S, u ≠ dest ∧ ∀ w ∈ nbrs g u, w ∈ S ∨ w ∈ q) →
      ∀ v, v ∈ S ∨ v ∈ q → ¬ Reach g v dest := by
  intro fuel
  induction fuel with
  | zero => intro S q tr h; exact absurd h (by simp [bfsAux])
  | succ fuel ih =>
    intro S q tr h hInv v hv hr
    match q, hv with
    | [], hv =>
      have hv' : v ∈ S := by
        rcases hv with h' | h'
        · exact h'
        · simp at h'
      have hcl : ∀ u ∈ S, ∀ w ∈ nbrs g u, w ∈ S := by
        intro u hu w hw
        rcases (hInv u hu).2 w hw with h' | h'
        · exact h'
        · simp at h'
      exact (hInv dest (closure_reach g S hcl hv' hr)).1 rfl
    | v₀ :: q', hv =>
      by_cases hvd : v₀ = dest
      · rw [show bfsAux g dest (fuel + 1) S (v₀ :: q') = some (true, [v₀]) from by
          simp [bfsAux, hvd]] at h
        exact absurd h (by simp)
      · have hstep : bfsAux g dest (fuel + 1) S (v₀ :: q')
            = (bfsAux g dest fuel (S.insert v₀)
                (q' ++ (nbrs g v₀).filter fun w => decide (w ∉ S.insert v₀))).map
              (fun p => (p.1, v₀ :: p.2)) := by
          simp [bfsAux, hvd]
        rw [hstep] at h
        obtain ⟨⟨b', tr'⟩, hrec, heq⟩ := Option.map_eq_some'.1 h
        have hb : b' = false := by
          have := (Prod.ext_iff.1 heq).1
          simpa using this
        subst hb
        refine ih (S.insert v₀) _ tr' hrec ?_ v ?_ hr
        · intro u hu
          rcases List.mem_insert_iff.1 hu with rfl | huS
          · refine ⟨hvd, ?_⟩
            intro w hw
            by_cases hwS : w ∈ S.insert u
            · exact Or.inl hwS
            · refine Or.inr (List.mem_append.2 (Or.inr ?_))
              exact List.mem_filter.2 ⟨hw, by simpa using hwS⟩
          · obtain ⟨hne, hcl⟩ := hInv u huS
            refine ⟨hne, fun w hw => ?_⟩
            rcases hcl w hw with hS | hq
            · exact Or.inl (List.mem_insert_iff.2 (Or.inr hS))
            · rcases List.mem_cons.1 hq with rfl | hq'
              · exact Or.inl (List.mem_insert_iff.2 (Or.inl rfl))
              · exact Or.inr (List.mem_append.2 (Or.inl hq'))
        · rcases hv with hS | hq
          · exact Or.inl (List.mem_insert_iff.2 (Or.inr hS))
          · rcases List.mem_cons.1 hq with rfl | hq'
            · exact Or.inl (List.mem_insert_iff.2 (Or.inl rfl))
            · exact Or.inr (List.mem_append.2 (Or.inl hq'))

/-- If the search loop answers `true` and every queued node is reachable
from the origin, the destination is reachable from the origin. -/
theorem bfsAux_true (g : FGraph) (dest o : ℕ) :
    ∀ fuel S q tr, bfsAux g dest fuel S q = some (true, tr) →
      (∀ v ∈ q, Reach g o v) → Reach g o dest := by
  intro fuel
  induction fuel with
  | zero => intro S q tr h; exact absurd h (by simp [bfsAux])
  | succ fuel ih =>
    intro S q tr h hq
    match q with
    | [] =>
      rw [show bfsAux g dest (fuel + 1) S [] = some (false, []) from by simp [bfsAux]] at h
      exact absurd h (by simp)
    | v₀ :: q' =>
      by_cases hvd : v₀ = dest
      · exact hvd ▸ hq v₀ (by simp)
      · have hstep : bfsAux g dest (fuel + 1) S (v₀ :: q')
            = (bfsAux g dest fuel (S.insert v₀)
                (q' ++ (nbrs g v₀).filter fun w => decide (w ∉ S.insert v₀))).map
              (fun p => (p.1, v₀ :: p.2)) := by
          simp [bfsAux, hvd]
        rw [hstep] at h
        obtain ⟨⟨b', tr'⟩, hrec, heq⟩ := Option.map_eq_some'.1 h
        have hb : b' = true := by
          have := (Prod.ext_iff.1 heq).1
          simpa using this
        subst hb
        refine ih (S.insert v₀) _ tr' hrec ?_
        intro w hw
        rcases List.mem_append.1 hw with hw' | hw'
        · exact hq w (by simp [hw'])
        · exact Relation.ReflTransGen.tail (hq v₀ (by simp)) (List.mem_filter.1 hw').1

/-- In a well-formed graph all neighbours are nodes. -/
theorem nbrs_subset_nodes (g : FGraph) (hWF : WFc g) :
    ∀ v, ∀ w ∈ nbrs g v, w ∈ g.nodes := by
  intro v w hw
  obtain ⟨e, he, hfe⟩ := List.mem_filterMap.1 hw
  by_cases h1 : e.1 = v
  · rw [if_pos h1] at hfe
    exact (Option.some_inj.1 hfe) ▸ (hWF.2.1 e he).2.1
  · rw [if_neg h1] at hfe
    by_cases h2 : e.2 = v
    · rw [if_pos h2] at hfe
      exact (Option.some_inj.1 hfe) ▸ (hWF.2.1 e he).1
    · rw [if_neg h2] at hfe
      exact absurd hfe (by simp)

/-- `List.insert` and `Finset.insert` commute with `toFinset`. -/
theorem list_toFinset_insert (a : ℕ) (l : List ℕ) :
    (l.insert a).toFinset = insert a l.toFinset := by
  ext x
  simp [List.mem_insert_iff]

/-- The search loop terminates: from any state whose queue stays inside the
finite vertex pool `V`, some number of iterations suffices.  The measure is
lexicographic: the number of unseen pool nodes, then the number of queued
nodes that are already seen (a dequeue of a seen node enqueues only unseen
ones). -/
theorem bfsAux_term (g : FGraph) (dest : ℕ) (V : Finset ℕ)
    (hnb : ∀ v, ∀ w ∈ nbrs g v, w ∈ V) :
    ∀ a b S q, (∀ v ∈ q, v ∈ V) → (V \ S.toFinset).card = a →
      q.countP (fun w => decide (w ∈ S)) = b →
      ∃ fuel r, bfsAux g dest fuel S q = some r := by
  intro a
  induction a using Nat.strong_induction_on with
  | _ a ihA =>
    intro b
    induction b using Nat.strong_induction_on with
    | _ b ihB =>
      intro S q hq ha hb
      match q with
      | [] => exact ⟨1, (false, []), by simp [bfsAux]⟩
      | v₀ :: q' =>
        by_cases hvd : v₀ = dest
        · exact ⟨1, (true, [v₀]), by simp [bfsAux, hvd]⟩
        · by_cases hvS : v₀ ∈ S
          · have hS' : S.insert v₀ = S := List.insert_of_mem hvS
            have hstep : ∀ fuel, bfsAux g dest (fuel + 1) S (v₀ :: q')
                = (bfsAux g dest fuel (S.insert v₀)
                    (q' ++ (nbrs g v₀).filter fun w => decide (w ∉ S.insert v₀))).map
                  (fun p => (p.1, v₀ :: p.2)) := by
              intro fuel
              simp [bfsAux, hvd]
            rw [hS'] at hstep
            have hq2 : ∀ w ∈ q' ++ (nbrs g v₀).filter fun w => decide (w ∉ S), w ∈ V := by
              intro w hw
              rcases List.mem_append.1 hw with hw' | hw'
              · exact hq w (by simp [hw'])
              · exact hnb v₀ w (List.mem_filter.1 hw').1
            have hcount : (q' ++ (nbrs g v₀).filter fun w => decide (w ∉ S)).countP
                (fun w => decide (w ∈ S)) = q'.countP (fun w => decide (w ∈ S)) := by
              rw [List.countP_append]
              have hz : ((nbrs g v₀).filter fun w => decide (w ∉ S)).countP
                  (fun w => decide (w ∈ S)) = 0 := by
                apply List.countP_eq_zero.2
                intro w hw
                have hwn : w ∉ S := by simpa using (List.mem_filter.1 hw).2
                simpa using hwn
              omega
            have hblt : q'.countP (fun w => decide (w ∈ S)) < b := by
              rw [← hb, List.countP_cons]
              simp [hvS]
            obtain ⟨fuel, r, hr⟩ := ihB _ hblt S
              (q' ++ (nbrs g v₀).filter fun w => decide (w ∉ S)) hq2 ha hcount
            exact ⟨fuel + 1, (r.1, v₀ :: r.2), by rw [hstep fuel, hr]; rfl⟩
          · have hstep : ∀ fuel, bfsAux g dest (fuel + 1) S (v₀ :: q')
                = (bfsAux g dest fuel (S.insert v₀)
                    (q' ++ (nbrs g v₀).filter fun w => decide (w ∉ S.insert v₀))).map
                  (fun p => (p.1, v₀ :: p.2)) := by
              intro fuel
              simp [bfsAux, hvd]
            have hq2 : ∀ w ∈ q' ++ (nbrs g v₀).filter fun w => decide (w ∉ S.insert v₀),
                w ∈ V := by
              intro w hw
              rcases List.mem_append.1 hw with hw' | hw'
              · exact hq w (by simp [hw'])
              · exact hnb v₀ w (List.mem_filter.1 hw').1
            have hvV : v₀ ∈ V := hq v₀ (by simp)
            have hmem : v₀ ∈ V \ S.toFinset :=
              Finset.mem_sdiff.2 ⟨hvV, by simpa using hvS⟩
            have hcard : (V \ (S.insert v₀).toFinset).card < a := by
              rw [← ha, list_toFinset_insert, Finset.sdiff_insert]
              exact Finset.card_erase_lt_of_mem hmem
            obtain ⟨fuel, r, hr⟩ := ihA _ hcard _ (S.insert v₀) _ hq2 rfl rfl
            exact ⟨fuel + 1, (r.1, v₀ :: r.2), by rw [hstep fuel, hr]; rfl⟩

/-- C4, amended: on a well-formed graph, `is_nodes_connected` terminates
(some number of loop iterations completes the search, even on graphs with
cycles), returns `true` if and only if the destination is reachable from the
origin along edges, and in particular returns `true` when
`origin = destination`; however a node may be dequeued more than once, since
nodes are marked seen when dequeued rather than when enqueued. -/
theorem bfs_terminates_and_decides_reachability (g : FGraph) (o d : ℕ) (hWF : WFc g) (ho : o ∈ g.nodes) :
    ∃ fuel b tr, bfsAux g d fuel [] [o] = some (b, tr) ∧
      (b = true ↔ Reach g o d) ∧ (o = d → b = true) := by
  obtain ⟨fuel, ⟨b, tr⟩, hr⟩ := bfsAux_term g d (insert o g.nodes.toFinset)
    (fun v w hw => Finset.mem_insert.2 (Or.inr (List.mem_toFinset.2
      (nbrs_subset_nodes g hWF v w hw))))
    _ _ [] [o] (by simp) rfl rfl
  have hfalse : b = false → ¬ Reach g o d := fun hb =>
    bfsAux_false g d fuel [] [o] tr (hb ▸ hr) (by simp) o (Or.inr (by simp))
  have htrue : b = true → Reach g o d := by
    intro hb
    refine bfsAux_true g d o fuel [] [o] tr (hb ▸ hr) ?_
    intro v hv
    have hv' : v = o := by simpa using hv
    subst hv'
    exact Relation.ReflTransGen.refl
  refine ⟨fuel, b, tr, hr, ?_, ?_⟩
  · constructor
    · exact htrue
    · intro hreach
      cases hB : b
      · exact absurd hreach (hfalse hB)
      · rfl
  · intro hod
    subst hod
    cases hB : b
    · exact absurd Relation.ReflTransGen.refl (hfalse hB)
    · rfl

/-- Witness for C4 (amended) at the diamond graph, origin `0`,
destination `4`. -/
theorem bfs_terminates_and_decides_reachability_witness :
    WFc gDiamond ∧ (0 : ℕ) ∈ gDiamond.nodes ∧
    (∃ fuel b tr, bfsAux gDiamond 4 fuel [] [0] = some (b, tr) ∧
      (b = true ↔ Reach gDiamond 0 4) ∧ ((0 : ℕ) = 4 → b = true)) :=
  ⟨by decide, by decide,
    bfs_terminates_and_decides_reachability gDiamond 0 4 (by decide) (by decide)⟩

/-- A fallible map whose every step succeeds returns the mapped list. -/
theorem optMapList_of_some {α β : Type} (f : α → Option β) (d : α → β) :
    ∀ l : List α, (∀ x ∈ l, f x = some (d x)) → optMapList f l = some (l.map d) := by
  intro l
  induction l with
  | nil => intro _; rfl
  | cons x xs ih =>
    intro h
    rw [optMapList, h x (by simp), ih fun y hy => h y (by simp [hy])]
    rfl

/-- The fallible running-maximum fold succeeds and computes the plain fold
when every lookup succeeds. -/
theorem optFoldList_max_of_some {α : Type} (h : α → Option ℕ) (d : α → ℕ) :
    ∀ (l : List α), (∀ i ∈ l, h i = some (d i)) → ∀ acc : ℤ,
      optFoldList (fun acc i => Option.map (fun n : ℕ => max acc (n : ℤ)) (h i)) acc l
        = some (l.foldl (fun acc i => max acc ((d i : ℕ) : ℤ)) acc) := by
  intro l
  induction l with
  | nil => intro _ acc; rfl
  | cons x xs ih =>
    intro hyp acc
    rw [optFoldList, hyp x (by simp)]
    exact ih (fun y hy => hyp y (by simp [hy])) (max acc (d x))

/-- On a connected graph the shortest-path dict of an origin node lists every
node with its distance, in node iteration order. -/
theorem spDict_connected (g : FGraph) (o : ℕ) (hcon : ConnectedG g) (ho : o ∈ g.nodes) :
    spDict g o = g.nodes.map fun v => (v, (dist g o v).getD 0) := by
  rw [spDict]
  have : ∀ l : List ℕ, (∀ v ∈ l, (dist g o v).isSome) →
      (l.filterMap fun v => (dist g o v).map fun d => (v, d))
        = l.map fun v => (v, (dist g o v).getD 0) := by
    intro l
    induction l with
    | nil => intro _; rfl
    | cons v vs ih =>
      intro h
      obtain ⟨dv, hdv⟩ := Option.isSome_iff_exists.1 (h v (by simp))
      rw [List.filterMap_cons, List.map_cons, hdv]
      simp only [Option.map_some']
      rw [ih fun w hw => h w (by simp [hw])]
      rfl
  exact this g.nodes fun v hv => hcon o ho v hv

/-- Looking up a key of a keyed map-built dict returns its value. -/
theorem dictGet_map_self (f : ℕ → ℕ) (k : ℕ) :
    ∀ l : List ℕ, k ∈ l → dictGet (l.map fun v => (v, f v)) k = some (f k) := by
  intro l
  induction l with
  | nil => intro h; simp at h
  | cons v vs ih =>
    intro hk
    by_cases hv : v = k
    · subst hv
      rw [dictGet, List.map_cons, List.find?_cons_of_pos _ (by simp)]
      rfl
    · have hk' : k ∈ vs := by
        rcases List.mem_cons.1 hk with h | h
        · exact absurd h.symm hv
        · exact h
      rw [dictGet, List.map_cons, List.find?_cons_of_neg _ (by simp [hv])]
      exact ih hk'

/-- A running-maximum fold never drops below its initial accumulator. -/
theorem foldl_max_init_le : ∀ (l : List ℤ) (a : ℤ), a ≤ l.foldl max a := by
  intro l
  induction l with
  | nil => intro a; exact le_refl a
  | cons x xs ih => intro a; exact le_trans (le_max_left a x) (ih (max a x))

/-- The per-origin maximum shortest-path length, with the code's `-1`
initial accumulator. -/
theorem originMaxDistance_eq (g : FGraph) (o : ℕ) (hcon : ConnectedG g)
    (hperm : g.nodes.Perm (List.range g.nodes.length)) (ho : o ∈ g.nodes) :
    originMaxDistance g o
      = some ((g.nodes.map fun v => ((dist g o v).getD 0 : ℤ)).foldl max (-1)) := by
  have hsp := spDict_connected g o hcon ho
  have hlen : (spDict g o).length = g.nodes.length := by rw [hsp, List.length_map]
  have hget : ∀ i ∈ List.range (spDict g o).length,
      dictGet (spDict g o) i = some ((dist g o i).getD 0) := by
    intro i hi
    rw [hsp]
    apply dictGet_map_self
    rw [hlen] at hi
    exact hperm.mem_iff.2 hi
  rw [originMaxDistance,
    optFoldList_max_of_some (dictGet (spDict g o)) (fun i => (dist g o i).getD 0)
      (List.range (spDict g o).length) hget (-1)]
  congr 1
  rw [hlen]
  have hfoldperm : (List.range g.nodes.length).foldl
        (fun acc i => max acc (((dist g o i).getD 0 : ℕ) : ℤ)) (-1)
      = g.nodes.foldl (fun acc i => max acc (((dist g o i).getD 0 : ℕ) : ℤ)) (-1) :=
    @List.Perm.foldl_eq _ _ _ _ _
      ⟨fun acc x y => by
        rw [max_assoc, max_comm (((dist g o x).getD 0 : ℕ) : ℤ), ← max_assoc]⟩
      hperm.symm (-1)
  rw [hfoldperm, ← List.foldl_map]

/-- On a connected graph the networkx eccentricity of a node is the maximum
of its shortest-path distances (computed with the code-side `-1` seed). -/
theorem eccOf_eq (g : FGraph) (o : ℕ) (hcon : ConnectedG g) (ho : o ∈ g.nodes) :
    eccOf g o
      = some ((g.nodes.map fun v => ((dist g o v).getD 0 : ℤ)).foldl max (-1)) := by
  have hsp := spDict_connected g o hcon ho
  have hlen : (spDict g o).length = g.nodes.length := by rw [hsp, List.length_map]
  obtain ⟨n₀, ns, hns⟩ : ∃ n₀ ns, g.nodes = n₀ :: ns := by
    match hg : g.nodes, ho with
    | n₀ :: ns, _ => exact ⟨n₀, ns, rfl⟩
  have hvals : (spDict g o).map (fun p => ((p.2 : ℕ) : ℤ))
      = ((dist g o n₀).getD 0 : ℤ) :: ns.map fun v => ((dist g o v).getD 0 : ℤ) := by
    rw [hsp, List.map_map, hns]
    rfl
  rw [eccOf, if_pos hlen, hvals]
  show some _ = some _
  congr 1
  rw [hns, List.map_cons]
  show _ = List.foldl max (max (-1) ((dist g o n₀).getD 0 : ℤ)) _
  rw [max_eq_right (le_trans (by norm_num) (Int.natCast_nonneg ((dist g o n₀).getD 0)))]

/-- A graph with a member node has a nonempty node list. -/
theorem nodes_cons_of_mem {g : FGraph} {o : ℕ} (ho : o ∈ g.nodes) :
    ∃ n₀ ns, g.nodes = n₀ :: ns := by
  match hg : g.nodes, ho with
  | n₀ :: ns, _ => exact ⟨n₀, ns, rfl⟩

/-- The per-origin maximum distance of a nonempty graph is nonnegative. -/
theorem originMax_nonneg (g : FGraph) (o : ℕ) (hne : ∃ n₀ ns, g.nodes = n₀ :: ns) :
    0 ≤ (g.nodes.map fun v => ((dist g o v).getD 0 : ℤ)).foldl max (-1) := by
  obtain ⟨n₀, ns, hns⟩ := hne
  rw [hns, List.map_cons]
  show (0 : ℤ) ≤ List.foldl max (max (-1) ((dist g o n₀).getD 0 : ℤ)) _
  rw [max_eq_right (le_trans (by norm_num) (Int.natCast_nonneg ((dist g o n₀).getD 0)))]
  exact le_trans (Int.natCast_nonneg _) (foldl_max_init_le _ _)

/-- On a connected graph with identifiers `0 .. N-1`, the deprecated distance
distribution is the tally of the per-origin maximum distances. -/
theorem distance_distribution_eq (g : FGraph) (hcon : ConnectedG g)
    (hperm : g.nodes.Perm (List.range g.nodes.length)) :
    get_distance_distribution g
      = some (tallyZ (g.nodes.map fun o =>
          (g.nodes.map fun v => ((dist g o v).getD 0 : ℤ)).foldl max (-1))) := by
  rw [get_distance_distribution,
    optMapList_of_some (originMaxDistance g)
      (fun o => (g.nodes.map fun v => ((dist g o v).getD 0 : ℤ)).foldl max (-1))
      g.nodes (fun o ho => originMaxDistance_eq g o hcon hperm ho)]
  simp only [Option.map_some']
  congr 1
  congr 1
  apply List.filter_eq_self.2
  intro m hm
  obtain ⟨o, ho, rfl⟩ := List.mem_map.1 hm
  have h0 := originMax_nonneg g o (nodes_cons_of_mem ho)
  simp only [decide_eq_true_eq]
  omega

/-- On a connected graph the eccentricity distribution is the tally of the
per-origin maximum distances. -/
theorem ecc_distribution_eq (g : FGraph) (hcon : ConnectedG g) :
    get_eccentricity_distribution g
      = some (tallyZ (g.nodes.map fun o =>
          (g.nodes.map fun v => ((dist g o v).getD 0 : ℤ)).foldl max (-1))) := by
  rw [get_eccentricity_distribution,
    optMapList_of_some (eccOf g) _ g.nodes (fun o ho => eccOf_eq g o hcon ho)]
  rfl

/-- C10: on every connected graph whose node identifiers are exactly
`0 .. N-1`, the deprecated `get_distance_distribution` returns a mapping
equal to the one returned by `get_eccentricity_distribution` (both tally, for
each eccentricity value, the nodes whose maximum shortest-path distance
equals it), and the eccentricity distribution is defined; outside that
identifier range the deprecated function raises (`path.get(dest)` misses and
`max` is applied to `None`) instead of producing any all-pairs tally, as the
graph on the identifiers `{5, 7}` shows. -/
theorem deprecated_distribution_matches_eccentricity :
    (∀ g : FGraph, ConnectedG g → g.nodes.Perm (List.range g.nodes.length) →
      get_distance_distribution g = get_eccentricity_distribution g ∧
      (get_eccentricity_distribution g).isSome) ∧
    get_distance_distribution gFive = none := by
  refine ⟨fun g hcon hperm => ?_, by decide⟩
  rw [distance_distribution_eq g hcon hperm, ecc_distribution_eq g hcon]
  exact ⟨rfl, rfl⟩

/-- Witness for C10 at the 4-cycle. -/
theorem deprecated_distribution_matches_eccentricity_witness :
    ConnectedG gRing ∧ gRing.nodes.Perm (List.range gRing.nodes.length) ∧
    (get_distance_distribution gRing = get_eccentricity_distribution gRing ∧
      (get_eccentricity_distribution gRing).isSome) :=
  ⟨by decide, by decide,
    deprecated_distribution_matches_eccentricity.1 gRing (by decide) (by decide)⟩

/-- C5, counterexample: on the connected path graph `0 - 1 - 2` the
deprecated `get_distance_distribution` returns `{2: 2, 1: 1}`, which maps
shortest-path length 1 to a count of 1, while the all-pairs tally of
shortest-path lengths over node pairs maps it to 2 — the function does not
count node pairs. -/
theorem distance_distribution_not_pair_tally :
    get_distance_distribution gPath = some [(2, 2), (1, 1)] ∧
    spec_pair_distance_tally gPath = [(1, 2), (2, 1)] ∧
    countAt [(2, 2), (1, 1)] 1 = 1 ∧
    countAt [(1, 2), (2, 1)] 1 = 2 := by
  decide

/-- C5, amended: `get_eccentricity_distribution` maps each eccentricity value
to the number of *nodes* realizing it, and the deprecated
`get_distance_distribution` computes the very same node count (one tally per
origin, at the origin's maximum shortest-path distance) — not a count of
node pairs — so on connected graphs with identifiers `0 .. N-1`, where both
are defined, the two functions agree. -/
theorem distributions_count_nodes_by_eccentricity (g : FGraph)
    (hcon : ConnectedG g) (hperm : g.nodes.Perm (List.range g.nodes.length)) :
    get_eccentricity_distribution g = some (spec_eccentricity_node_tally g) ∧
    get_distance_distribution g = some (spec_eccentricity_node_tally g) := by
  have hM : ∀ o ∈ g.nodes,
      (g.nodes.map fun v => ((dist g o v).getD 0 : ℤ)).foldl max (-1)
        = spec_node_eccentricity g o := by
    intro o ho
    obtain ⟨n₀, ns, hns⟩ := nodes_cons_of_mem ho
    rw [spec_node_eccentricity, hns, List.map_cons]
    show List.foldl max (max (-1) ((dist g o n₀).getD 0 : ℤ)) _
        = List.foldl max (max 0 ((dist g o n₀).getD 0 : ℤ)) _
    rw [max_eq_right (le_trans (by norm_num) (Int.natCast_nonneg ((dist g o n₀).getD 0))),
      max_eq_right (Int.natCast_nonneg ((dist g o n₀).getD 0))]
  have htally : tallyZ (g.nodes.map fun o =>
        (g.nodes.map fun v => ((dist g o v).getD 0 : ℤ)).foldl max (-1))
      = spec_eccentricity_node_tally g := by
    rw [spec_eccentricity_node_tally]
    congr 1
    exact List.map_congr_left hM
  rw [distance_distribution_eq g hcon hperm, ecc_distribution_eq g hcon, htally]
  exact ⟨rfl, rfl⟩

/-- Witness for C5 (amended) at the path graph `0 - 1 - 2`. -/
theorem distributions_count_nodes_by_eccentricity_witness :
    ConnectedG gPath ∧ gPath.nodes.Perm (List.range gPath.nodes.length) ∧
    (get_eccentricity_distribution gPath = some (spec_eccentricity_node_tally gPath) ∧
      get_distance_distribution gPath = some (spec_eccentricity_node_tally gPath)) :=
  ⟨by decide, by decide,
    distributions_count_nodes_by_eccentricity gPath (by decide) (by decide)⟩

/-- When the identifiers are exactly `0 .. N-1`, sorting the nodes yields
`range N`. -/
theorem sNodes_eq_range (g : FGraph)
    (hperm : g.nodes.Perm (List.range g.nodes.length)) :
    sNodes g = List.range g.nodes.length :=
  List.eq_of_perm_of_sorted ((List.perm_insertionSort _ g.nodes).trans hperm)
    (List.sorted_insertionSort _ g.nodes) (List.sorted_le_range g.nodes.length)

/-- The index of `v` in `range n` is `v`. -/
theorem indexOf_range (v n : ℕ) (h : v < n) : (List.range n).indexOf v = v := by
  induction n with
  | zero => omega
  | succ m ih =>
    rw [List.range_succ]
    by_cases hv : v < m
    · rw [List.indexOf_append_of_mem (by simp [hv])]
      exact ih hv
    · have hv' : v = m := by omega
      subst hv'
      rw [List.indexOf_append_of_not_mem (by simp), List.length_range]
      simp [List.indexOf_cons]

/-- With identifiers `0 .. N-1` each node is its own canonical index. -/
theorem nodeIdx_eq_self (g : FGraph)
    (hperm : g.nodes.Perm (List.range g.nodes.length)) (v : ℕ) (hv : v ∈ g.nodes) :
    nodeIdx g v = v := by
  rw [nodeIdx, sNodes_eq_range g hperm]
  exact indexOf_range v _ (List.mem_range.1 (hperm.mem_iff.1 hv))

/-- With identifiers `0 .. N-1` the degree matrix succeeds and its row for
node `v` holds `degree v` at position `v`. -/
theorem degree_matrix_eq (g : FGraph)
    (hperm : g.nodes.Perm (List.range g.nodes.length)) :
    get_degree_matrix g = some (g.nodes.map fun v =>
      (List.replicate g.nodes.length (0 : ℤ)).set v (degree g v : ℤ)) := by
  rw [get_degree_matrix]
  apply optMapList_of_some
  intro v hv
  have hni : nodeIdx g v = v := nodeIdx_eq_self g hperm v hv
  have hlen : (sNodes g).length = g.nodes.length := List.length_insertionSort _ _
  rw [degRow]
  simp only [hni, hlen, degLookup, if_pos hv, Option.map_some']

/-- Summing the positional entries of a row recovers the row sum. -/
theorem row_entries_sum (row : List ℤ) :
    ((List.range row.length).map fun c => (row[c]?).getD 0).sum = row.sum := by
  congr 1
  apply List.ext_getElem (by simp)
  intro n h1 h2
  simp [List.getElem?_eq_getElem h2]

/-- The sum of an entrywise difference is the difference of the sums. -/
theorem sum_map_sub (f h : ℕ → ℤ) : ∀ l : List ℕ,
    (l.map fun c => f c - h c).sum = (l.map f).sum - (l.map h).sum := by
  intro l
  induction l with
  | nil => simp
  | cons x xs ih =>
    simp only [List.map_cons, List.sum_cons, ih]
    ring

/-- A zero row with one written entry sums to that entry. -/
theorem set_zero_sum (N v : ℕ) (x : ℤ) (hv : v < N) :
    ((List.replicate N (0 : ℤ)).set v x).sum = x := by
  rw [List.sum_set]
  simp [List.take_replicate, List.drop_replicate, List.sum_replicate, hv]

/-- Writing a `1` over a zero entry raises the row sum by one. -/
theorem set_one_sum (base : List ℤ) (i : ℕ) (h0 : base[i]? = some 0) :
    (base.set i 1).sum = base.sum + 1 := by
  have hi : i < base.length := by
    by_contra hh
    rw [List.getElem?_eq_none (by omega)] at h0
    simp at h0
  have hbase : base[i] = 0 := by
    rw [List.getElem?_eq_getElem hi] at h0
    simpa using h0
  have hdec : base.sum = (base.take i).sum + (base[i] + (base.drop (i + 1)).sum) := by
    rw [← List.sum_take_add_sum_drop base i, List.drop_eq_getElem_cons hi, List.sum_cons]
  rw [List.sum_set, if_pos hi, hdec, hbase]
  ring

/-- The marking loop preserves the row length. -/
theorem markOnes_length (idxs : List ℕ) : ∀ base : List ℤ,
    (markOnes base idxs).length = base.length := by
  induction idxs with
  | nil => intro base; rfl
  | cons i is ih =>
    intro base
    rw [show markOnes base (i :: is) = markOnes (base.set i 1) is from rfl, ih,
      List.length_set]

/-- Marking distinct zero positions with `1` adds their number to the sum. -/
theorem markOnes_sum : ∀ (idxs : List ℕ) (base : List ℤ), idxs.Nodup →
    (∀ j ∈ idxs, base[j]? = some 0) →
    (markOnes base idxs).sum = base.sum + idxs.length := by
  intro idxs
  induction idxs with
  | nil => intro base _ _; simp [markOnes]
  | cons i is ih =>
    intro base hnd h0
    rw [show markOnes base (i :: is) = markOnes (base.set i 1) is from rfl]
    rw [ih (base.set i 1) (List.nodup_cons.1 hnd).2 ?_]
    · rw [set_one_sum base i (h0 i (by simp))]
      simp only [List.length_cons]
      push_cast
      ring
    · intro j hj
      have hij : i ≠ j := fun he => (List.nodup_cons.1 hnd).1 (he ▸ hj)
      rw [List.getElem?_set, if_neg hij]
      exact h0 j (by simp [hj])

/-- An edge list without duplicate undirected edges yields each neighbour of
`v` exactly once. -/
theorem filterMap_nbrs_nodup (v : ℕ) :
    ∀ es : List (ℕ × ℕ), es.Pairwise (fun e f => e ≠ f ∧ e ≠ (f.2, f.1)) →
    (es.filterMap fun e =>
      if e.1 = v then some e.2 else if e.2 = v then some e.1 else none).Nodup := by
  have hshape : ∀ (a : ℕ × ℕ) (u : ℕ),
      (if a.1 = v then some a.2 else if a.2 = v then some a.1 else none) = some u →
      a = (v, u) ∨ a = (u, v) := by
    intro a u hau
    by_cases h1 : a.1 = v
    · rw [if_pos h1] at hau
      left
      obtain rfl : a.2 = u := by simpa using hau
      exact Prod.ext h1 rfl
    · rw [if_neg h1] at hau
      by_cases h2 : a.2 = v
      · rw [if_pos h2] at hau
        right
        obtain rfl : a.1 = u := by simpa using hau
        exact Prod.ext rfl h2
      · rw [if_neg h2] at hau
        simp at hau
  intro es
  induction es with
  | nil => intro _; simp
  | cons e es ih =>
    intro hp
    obtain ⟨hhead, htail⟩ := List.pairwise_cons.1 hp
    rw [List.filterMap_cons]
    cases hfe : (if e.1 = v then some e.2 else if e.2 = v then some e.1 else none) with
    | none => exact ih htail
    | some w =>
      rw [List.nodup_cons]
      refine ⟨?_, ih htail⟩
      intro hw
      obtain ⟨e', he', hfe'⟩ := List.mem_filterMap.1 hw
      rcases hshape e w hfe with rfl | rfl <;> rcases hshape e' w hfe' with he2 | he2
      · exact (hhead e' he').1 he2.symm
      · exact (hhead e' he').2 (by rw [he2])
      · exact (hhead e' he').2 (by rw [he2])
      · exact (hhead e' he').1 he2.symm

/-- In a well-formed graph the neighbour list has no duplicates. -/
theorem nbrs_nodup (g : FGraph) (hWF : WFc g) (v : ℕ) : (nbrs g v).Nodup :=
  filterMap_nbrs_nodup v g.edges hWF.2.2

/-- With identifiers `0 .. N-1` an adjacency row without self-assignment
sums to the degree of its node. -/
theorem adjRow_sum (g : FGraph) (hWF : WFc g)
    (hperm : g.nodes.Perm (List.range g.nodes.length)) (v : ℕ) (_hv : v ∈ g.nodes) :
    (adjRow g false v).sum = (degree g v : ℤ) := by
  have hlen : (sNodes g).length = g.nodes.length := List.length_insertionSort _ _
  have hmap : (nbrs g v).map (nodeIdx g) = nbrs g v := by
    rw [show (nbrs g v).map (nodeIdx g) = (nbrs g v).map id from
      List.map_congr_left fun u hu => nodeIdx_eq_self g hperm u (nbrs_subset_nodes g hWF v u hu)]
    exact List.map_id _
  rw [adjRow]
  simp only [Bool.false_eq_true, if_false, hmap, hlen]
  rw [markOnes_sum (nbrs g v) _ (nbrs_nodup g hWF v) ?_]
  · simp [List.sum_replicate, degree]
  · intro j hj
    have hjN : j < g.nodes.length :=
      List.mem_range.1 (hperm.mem_iff.1 (nbrs_subset_nodes g hWF v j hj))
    simp [List.getElem?_replicate, hjN]

/-- C2, amended: for every well-formed graph whose node identifiers are
exactly `0 .. N-1`, `get_laplacian_matrix` succeeds, equals the degree matrix
minus the adjacency matrix built without self-assignment, and every row of
the result sums to exactly 0. -/
theorem laplacian_is_degree_sub_adjacency_rows_sum_zero (g : FGraph) (hWF : WFc g)
    (hperm : g.nodes.Perm (List.range g.nodes.length)) :
    ∃ D L, get_degree_matrix g = some D ∧ get_laplacian_matrix g = some L ∧
      L = (List.range g.nodes.length).map (fun r => (List.range g.nodes.length).map
        fun c => ent D r c - ent (get_adjacency_matrix g false) r c) ∧
      ∀ row ∈ L, row.sum = 0 := by
  have hD := degree_matrix_eq g hperm
  have hlen : (sNodes g).length = g.nodes.length := List.length_insertionSort _ _
  have hAlen : (get_adjacency_matrix g false).length = g.nodes.length := by
    rw [get_adjacency_matrix, List.length_map]
  refine ⟨_, _, hD, ?_, rfl, ?_⟩
  · rw [get_laplacian_matrix, hD, Option.map_some', hAlen]
  · intro row hrow
    obtain ⟨r, hr, rfl⟩ := List.mem_map.1 hrow
    have hrN : r < g.nodes.length := List.mem_range.1 hr
    have hvmem : g.nodes[r] ∈ g.nodes := List.getElem_mem hrN
    have hvN : g.nodes[r] < g.nodes.length :=
      List.mem_range.1 (hperm.mem_iff.1 hvmem)
    have hDr : (g.nodes.map fun v =>
          (List.replicate g.nodes.length (0 : ℤ)).set v (degree g v : ℤ))[r]?
        = some ((List.replicate g.nodes.length (0 : ℤ)).set g.nodes[r]
            (degree g g.nodes[r] : ℤ)) := by
      rw [List.getElem?_map, List.getElem?_eq_getElem hrN, Option.map_some']
    have hAr : (get_adjacency_matrix g false)[r]? = some (adjRow g false g.nodes[r]) := by
      rw [get_adjacency_matrix, List.getElem?_map, List.getElem?_eq_getElem hrN,
        Option.map_some']
    have hDlenrow : ((List.replicate g.nodes.length (0 : ℤ)).set g.nodes[r]
        (degree g g.nodes[r] : ℤ)).length = g.nodes.length := by
      rw [List.length_set, List.length_replicate]
    have hAlenrow : (adjRow g false g.nodes[r]).length = g.nodes.length := by
      rw [adjRow]
      simp only [Bool.false_eq_true, if_false]
      rw [markOnes_length, List.length_replicate, hlen]
    rw [sum_map_sub]
    have h1 : ((List.range g.nodes.length).map fun c =>
        ent (g.nodes.map fun v =>
          (List.replicate g.nodes.length (0 : ℤ)).set v (degree g v : ℤ)) r c).sum
        = (degree g g.nodes[r] : ℤ) := by
      have hcong : ((List.range g.nodes.length).map fun c =>
          ent (g.nodes.map fun v =>
            (List.replicate g.nodes.length (0 : ℤ)).set v (degree g v : ℤ)) r c)
          = ((List.range (((List.replicate g.nodes.length (0 : ℤ)).set g.nodes[r]
              (degree g g.nodes[r] : ℤ)).length)).map fun c =>
            ((((List.replicate g.nodes.length (0 : ℤ)).set g.nodes[r]
              (degree g g.nodes[r] : ℤ)))[c]?).getD 0) := by
        rw [hDlenrow]
        apply List.map_congr_left
        intro c _
        rw [ent, hDr]
        rfl
      rw [hcong, row_entries_sum]
      exact set_zero_sum g.nodes.length g.nodes[r] _ hvN
    have h2 : ((List.range g.nodes.length).map fun c =>
        ent (get_adjacency_matrix g false) r c).sum = (degree g g.nodes[r] : ℤ) := by
      have hcong : ((List.range g.nodes.length).map fun c =>
          ent (get_adjacency_matrix g false) r c)
          = ((List.range ((adjRow g false g.nodes[r]).length)).map fun c =>
            ((adjRow g false g.nodes[r])[c]?).getD 0) := by
        rw [hAlenrow]
        apply List.map_congr_left
        intro c _
        rw [ent, hAr]
        rfl
      rw [hcong, row_entries_sum]
      exact adjRow_sum g hWF hperm g.nodes[r] hvmem
    rw [h1, h2, sub_self]

/-- Witness for C2 (amended) at the path graph `0 - 1 - 2`. -/
theorem laplacian_is_degree_sub_adjacency_rows_sum_zero_witness :
    WFc gPath ∧ gPath.nodes.Perm (List.range gPath.nodes.length) ∧
    (∃ D L, get_degree_matrix gPath = some D ∧ get_laplacian_matrix gPath = some L ∧
      L = (List.range gPath.nodes.length).map (fun r => (List.range gPath.nodes.length).map
        fun c => ent D r c - ent (get_adjacency_matrix gPath false) r c) ∧
      ∀ row ∈ L, row.sum = 0) :=
  ⟨by decide, by decide,
    laplacian_is_degree_sub_adjacency_rows_sum_zero gPath (by decide) (by decide)⟩

end Analytics
